import Mathlib

/-!
Verification of the lineage-DAG core of `visualizer.py` (sql-visualizer).

The Python objects are embedded as records in an arena (`List DAGNode`);
a Python object reference becomes a `Nat` index into the arena, so object
identity is index equality and mutation is `List.set`.  All operations of
`DAGNode` and `SimplifiedDAG` are translated statement by statement from
the source.
-/

inductive NodeType
  | CTE | Table | Select
deriving DecidableEq, Repr

structure DAGNode where
  name : String
  node_t : NodeType
  sources : List Nat
  slen : Nat
  id : Option Nat
  color : Option String
deriving DecidableEq, Repr

/-- `DAGNode.__init__`: fresh node with empty sources, no id, no color. -/
def DAGNode.init (fqn : String) (t : NodeType) : DAGNode :=
  ⟨fqn, t, [], 0, none, none⟩

structure SimplifiedDAG where
  arena : List DAGNode
  trees : List Nat
  next_id : Nat
  colors : List (String × String)
deriving DecidableEq, Repr

/-- Dereference an object: out-of-range indices give an inert default,
which never occurs for references produced by the translated operations. -/
def SimplifiedDAG.getNode (g : SimplifiedDAG) (r : Nat) : DAGNode :=
  g.arena.getD r (DAGNode.init "" NodeType.Table)

/-- Mutate the object at reference `r`. -/
def SimplifiedDAG.setNode (g : SimplifiedDAG) (r : Nat) (n : DAGNode) : SimplifiedDAG :=
  { g with arena := g.arena.set r n }

/-- `DAGNode.__iter__`: yield each source, then recursively everything below
it, in source order (pre-order, without deduplication).  The fuel argument
bounds the recursion depth; all graphs built by the translated operations
have sources pointing at strictly smaller references, so a fuel of
`g.arena.length` is exhaustive for them. -/
def nodeIter (g : SimplifiedDAG) : Nat → Nat → List Nat
  | 0, _ => []
  | fuel + 1, r => ((g.getNode r).sources).flatMap (fun s => s :: nodeIter g fuel s)

/-- `SimplifiedDAG.iter_deep`: every tree root followed by its descendants. -/
def SimplifiedDAG.iter_deep (g : SimplifiedDAG) : List Nat :=
  g.trees.flatMap (fun t => t :: nodeIter g g.arena.length t)

/-- The inner lookup loop of `SimplifiedDAG.insert`: first node of the full
walk whose name equals `nm` and whose kind is not CTE. -/
def findKnown (g : SimplifiedDAG) (nm : String) : Option Nat :=
  (g.iter_deep).find?
    (fun b => (g.getNode b).name == nm && (g.getNode b).node_t != NodeType.CTE)

/-- `SimplifiedDAG.assign_id`. -/
def SimplifiedDAG.assign_id (g : SimplifiedDAG) (r : Nat) : SimplifiedDAG :=
  { g.setNode r { g.getNode r with id := some g.next_id } with next_id := g.next_id + 1 }

/-- `SimplifiedDAG.add_node`: assign an id and append to the root list. -/
def SimplifiedDAG.add_node (g : SimplifiedDAG) (r : Nat) : SimplifiedDAG :=
  { g.assign_id r with trees := (g.assign_id r).trees ++ [r] }

/-- `SimplifiedDAG.rem_node`: `list.remove` removes the first occurrence. -/
def SimplifiedDAG.rem_node (g : SimplifiedDAG) (r : Nat) : SimplifiedDAG :=
  { g with trees := g.trees.erase r }

/-- `DAGNode.swap_source` performed on the node at reference `p`. -/
def SimplifiedDAG.swap_source (g : SimplifiedDAG) (p : Nat) (i : Nat) (s : Nat) : SimplifiedDAG :=
  g.setNode p { g.getNode p with sources := (g.getNode p).sources.set i s }

/-- One iteration of the loop body of `SimplifiedDAG.insert` for the child at
position `i` of `parent.sources`. -/
def insertChild (g : SimplifiedDAG) (p : Nat) (i : Nat) (c : Nat) : SimplifiedDAG :=
  match findKnown g ((g.getNode c).name) with
  | some known =>
      let g1 := if known ∈ g.trees then g.rem_node known else g
      g1.swap_source p i known
  | none => g.assign_id c

/-- The child loop of `SimplifiedDAG.insert`.  The Python loop enumerates
`parent.sources` while mutating it, but iteration `i` only rewrites position
`i`, so enumerating the initial list is equivalent. -/
def insertLoop (g : SimplifiedDAG) (p : Nat) : SimplifiedDAG :=
  ((g.getNode p).sources).enum.foldl (fun gacc ic => insertChild gacc p ic.1 ic.2) g

/-- `SimplifiedDAG.insert`. -/
def SimplifiedDAG.insert (g : SimplifiedDAG) (p : Nat) : SimplifiedDAG :=
  (insertLoop g p).add_node p

/-- `SimplifiedDAG.root_nodes`: nodes of the full walk with no sources,
deduplicated by name (first occurrence wins). -/
def SimplifiedDAG.root_nodes (g : SimplifiedDAG) : List Nat :=
  ((g.iter_deep).foldl
    (fun (acc : List Nat × List String) r =>
      if (g.getNode r).slen == 0 && !(acc.2.contains (g.getNode r).name)
      then (acc.1 ++ [r], acc.2 ++ [(g.getNode r).name])
      else acc)
    ([], [])).1

/-- `SimplifiedDAG.end_nodes`: exactly the root list. -/
def SimplifiedDAG.end_nodes (g : SimplifiedDAG) : List Nat :=
  g.trees

/-- The membership test of `unq_nodes` is `node.name not in seen` where
`seen` collects the node objects themselves; in Python, `==` between a `str`
and a `DAGNode` (which defines no `__eq__`) is always false, so the test
never filters anything.  This function embeds that comparison. -/
def pyStrEqNode (_ : String) (_ : DAGNode) : Bool := false

/-- `SimplifiedDAG.unq_nodes`, translated with its membership test as the
source performs it (see `pyStrEqNode`). -/
def SimplifiedDAG.unq_nodes (g : SimplifiedDAG) : List Nat :=
  (g.iter_deep).foldl
    (fun seen r =>
      if seen.any (fun r2 => pyStrEqNode (g.getNode r).name (g.getNode r2))
      then seen
      else seen ++ [r])
    []

/-- A stable structural sort: insert `a` after every element `b` with
`le b a`.  Python's `list.sort` is stable, and for any comparator of the
form `le a b = (key a ≤ key b)` (a total preorder, which is what
`sort(key=...)` uses) every stable sort produces the same output, so this
models `list.sort(key=...)` exactly. -/
def insSorted {α : Type} (le : α → α → Bool) (a : α) : List α → List α
  | [] => [a]
  | b :: l => if le b a then b :: insSorted le a l else a :: b :: l

def sortL {α : Type} (le : α → α → Bool) (l : List α) : List α :=
  l.foldl (fun acc a => insSorted le a acc) []

/-- `SimplifiedDAG.sort`: sort the root list, then sort the direct sources
of each root (`DAGNode.sort` sorts only `self.sources`; there is no deeper
recursion in the source). -/
def SimplifiedDAG.sortDAG (g : SimplifiedDAG) (le : DAGNode → DAGNode → Bool) : SimplifiedDAG :=
  (sortL (fun a b => le (g.getNode a) (g.getNode b)) g.trees).foldl
    (fun gacc t =>
      gacc.setNode t
        { gacc.getNode t with
          sources := sortL (fun a b => le (gacc.getNode a) (gacc.getNode b)) (gacc.getNode t).sources })
    { g with trees := sortL (fun a b => le (g.getNode a) (g.getNode b)) g.trees }

/-- `default_sort_rule`: the key `(node.slen, color or empty string, node.name)`. -/
def default_sort_rule (n : DAGNode) : Nat × String × String :=
  (n.slen, n.color.getD "", n.name)

/-- Strict lexicographic comparison of character lists by code point, the
order Python uses on `str`. -/
def charListLt : List Char → List Char → Bool
  | _, [] => false
  | [], _ :: _ => true
  | a :: as, b :: bs =>
      if a.toNat < b.toNat then true
      else if b.toNat < a.toNat then false
      else charListLt as bs

def strLt (a b : String) : Bool :=
  charListLt a.data b.data

def strLe (a b : String) : Bool :=
  strLt a b || a == b

/-- Lexicographic comparison of the default sort keys; `sort(key=...)` in
Python orders ascending by tuple comparison. -/
def keyLe (a b : Nat × String × String) : Bool :=
  if a.1 ≠ b.1 then a.1 ≤ b.1
  else if a.2.1 ≠ b.2.1 then strLt a.2.1 b.2.1
  else strLe a.2.2 b.2.2

def defaultLe (a b : DAGNode) : Bool :=
  keyLe (default_sort_rule a) (default_sort_rule b)

/-- `SimplifiedDAG.set_node_color_rule`: assign `callback(branch)` to the
color of every branch of the root list, in order. -/
def SimplifiedDAG.set_node_color_rule (g : SimplifiedDAG) (cb : DAGNode → Option String) : SimplifiedDAG :=
  g.trees.foldl
    (fun gacc b => gacc.setNode b { gacc.getNode b with color := cb (gacc.getNode b) })
    g

/-- Rendering of a node id in an f-string (`None` for an unset id, as in
Python). -/
def idStr : Option Nat → String
  | none => "None"
  | some n => toString n

/-- One line of the vertex/edge body of the diagram. -/
inductive MMLine
  | decl (id : Option Nat) (nm : String)
  | edge (src tgt : Option Nat)
deriving DecidableEq, Repr

def renderMMLine : MMLine → String
  | .decl i nm => "\t" ++ idStr i ++ "[\"" ++ nm ++ "\"]\n"
  | .edge s t => "\t" ++ idStr s ++ " --> " ++ idStr t ++ "\n"

/-- The vertex-declaration and edge lines `mm` emits, in emission order: for
each branch of `unq_nodes()`, its declaration followed by the edges of
`branch.pairs()` (one `(source, self)` pair per direct source). -/
def SimplifiedDAG.mmBodyLines (g : SimplifiedDAG) : List MMLine :=
  (g.unq_nodes).flatMap (fun r =>
    MMLine.decl (g.getNode r).id (g.getNode r).name ::
      (g.getNode r).sources.map (fun s => MMLine.edge (g.getNode s).id (g.getNode r).id))

/-- Python truthiness of `branch.color`: `None` and the empty string are
falsy. -/
def truthyColor : Option String → Option String
  | none => none
  | some c => if c == "" then none else some c

/-- Append `v` to the bucket `k` of the ordered class dictionary, creating
the bucket if absent (`node_class[k] = []` followed by `append`). -/
def bumpClass (nc : List (String × List (Option Nat))) (k : String) (v : Option Nat) :
    List (String × List (Option Nat)) :=
  if nc.any (fun p => p.1 == k)
  then nc.map (fun p => if p.1 == k then (p.1, p.2 ++ [v]) else p)
  else nc ++ [(k, [v])]

/-- The `node_class` dictionary built by the rendering loop of `mm`: each
unique node is classified into exactly one bucket, in priority order
color, CTE kind, root membership, end membership, intermediate.  The source
builds this in the same loop that emits the body string; the two
computations do not interact, so they are translated separately. -/
def SimplifiedDAG.nodeClass (g : SimplifiedDAG) : List (String × List (Option Nat)) :=
  (g.unq_nodes).foldl
    (fun nc r =>
      let n := g.getNode r
      match truthyColor n.color with
      | some c => bumpClass nc c n.id
      | none =>
        if n.node_t == NodeType.CTE then bumpClass nc "cteNode" n.id
        else if g.root_nodes.contains r then bumpClass nc "srcNode" n.id
        else if g.end_nodes.contains r then bumpClass nc "endNode" n.id
        else bumpClass nc "intNode" n.id)
    [("srcNode", []), ("cteNode", []), ("intNode", []), ("endNode", [])]

/-- `dict.get` on the style dictionary. -/
def lookupColor (cs : List (String × String)) (k : String) : Option String :=
  (cs.find? (fun p => p.1 == k)).map (fun p => p.2)

/-- The `classDef` lines of `mm`: one per bucket key whose name has a truthy
registered style definition. -/
def SimplifiedDAG.classDefLines (g : SimplifiedDAG) : List String :=
  (g.nodeClass).filterMap (fun p =>
    match lookupColor g.colors p.1 with
    | some cd => if cd == "" then none else some ("\n\tclassDef " ++ p.1 ++ " " ++ cd ++ ";")
    | none => none)

/-- The `class` assignment lines of `mm`: one per non-empty bucket,
regardless of whether a style definition is registered for its name. -/
def SimplifiedDAG.classAssignLines (g : SimplifiedDAG) : List String :=
  (g.nodeClass).filterMap (fun p =>
    if p.2.isEmpty then none
    else some ("\n\tclass " ++ String.intercalate "," (p.2.map idStr) ++ " " ++ p.1))

def strCat (l : List String) : String :=
  l.foldl (fun a b => a ++ b) ""

/-- `SimplifiedDAG.mm`: header, body lines, `classDef` section, `class`
section, trailing newline.  The source accumulates the same pieces into one
string in the same order. -/
def SimplifiedDAG.mm (g : SimplifiedDAG) : String :=
  "\ngraph LR\n" ++ strCat ((g.mmBodyLines).map renderMMLine)
    ++ strCat g.classDefLines ++ strCat g.classAssignLines ++ "\n"

/-- The initial graph: `SimplifiedDAG.__init__` with the four built-in
style classes. -/
def SimplifiedDAG.empty : SimplifiedDAG :=
  { arena := []
    trees := []
    next_id := 0
    colors := [("srcNode", "fill:#EEEEEE,stroke:#666666"),
               ("cteNode", "fill:#7D858D,stroke:#666666"),
               ("intNode", "fill:#AACCD7,stroke:#666666"),
               ("endNode", "fill:#FDE1A7,stroke:#666666")] }

/-- A statement at the collaborator boundary: the identity of the parent
node and the name and kind of each dependency placeholder (the pipeline of
`process_ast` always builds Table placeholders; the graph operations accept
any kind). -/
structure Stmt where
  name : String
  node_t : NodeType
  children : List (String × NodeType)
deriving DecidableEq, Repr

/-- Allocate a fresh object in the arena, returning its reference. -/
def allocNode (g : SimplifiedDAG) (n : DAGNode) : SimplifiedDAG × Nat :=
  ({ g with arena := g.arena ++ [n] }, g.arena.length)

/-- Allocate one fresh placeholder object per dependency, left to right,
returning the references in order. -/
def allocChildren (g : SimplifiedDAG) : List (String × NodeType) → SimplifiedDAG × List Nat
  | [] => (g, [])
  | c :: cs =>
      let ar := allocNode g (DAGNode.init c.1 c.2)
      let rest := allocChildren ar.1 cs
      (rest.1, ar.2 :: rest.2)

/-- Construct the objects of one statement as `process_ast` does: one fresh
placeholder per dependency, then the parent with `add_source` applied once
per placeholder (which appends to `sources` and bumps `slen`). -/
def mkStmtNodes (g : SimplifiedDAG) (s : Stmt) : SimplifiedDAG × Nat :=
  let g1 := allocChildren g s.children
  allocNode g1.1 { DAGNode.init s.name s.node_t with sources := g1.2, slen := g1.2.length }

/-- Process one statement: build its nodes, then `insert` the parent. -/
def insertStmt (g : SimplifiedDAG) (s : Stmt) : SimplifiedDAG :=
  let gp := mkStmtNodes g s
  gp.1.insert gp.2

/-- The main loop: insert every statement in arrival order. -/
def buildDAG (stmts : List Stmt) : SimplifiedDAG :=
  stmts.foldl insertStmt SimplifiedDAG.empty

/-- Character-list prefix test, used for substring search on rendered
output. -/
def isPrefixChars : List Char → List Char → Bool
  | [], _ => true
  | _ :: _, [] => false
  | a :: as, b :: bs => a == b && isPrefixChars as bs

def containsSubChars (sub : List Char) : List Char → Bool
  | [] => isPrefixChars sub []
  | c :: rest => isPrefixChars sub (c :: rest) || containsSubChars sub rest

/-- Substring occurrence test on strings. -/
def containsSub (s sub : String) : Bool :=
  containsSubChars sub.data s.data

/-- The parent object built for a statement. -/
def parentNode (g : SimplifiedDAG) (s : Stmt) : DAGNode :=
  { DAGNode.init s.name s.node_t with
    sources := List.range' g.arena.length s.children.length
    slen := s.children.length }

/-- The state invariant of the merge engine: nodes of the root list are not
a source of anything, the root list has no duplicate references and stays in
the arena, and every source reference points strictly below its owner. -/
structure DAGInv (g : SimplifiedDAG) : Prop where
  notSrc : ∀ t ∈ g.trees, ∀ i : Nat, t ∉ (g.getNode i).sources
  nodup : g.trees.Nodup
  bound : ∀ t ∈ g.trees, t < g.arena.length
  desc : ∀ i : Nat, ∀ s ∈ (g.getNode i).sources, s < i

/-- The invariant carried through the child loop of one `insert` call:
`B` bounds the references of the root list and `p` is the parent reference,
the last allocated object. -/
structure LInv (B p : Nat) (g : SimplifiedDAG) : Prop where
  notSrc : ∀ t ∈ g.trees, ∀ i : Nat, t ∉ (g.getNode i).sources
  nodup : g.trees.Nodup
  boundB : ∀ t ∈ g.trees, t < B
  desc : ∀ i : Nat, ∀ s ∈ (g.getNode i).sources, s < i
  lenEq : g.arena.length = p + 1

/-! Concrete scenarios used by the claims. -/

/-- A table referenced first and created afterwards:
`SELECT ... FROM B` then `CREATE TABLE B AS SELECT ... FROM A`. -/
def exRefCreate : SimplifiedDAG :=
  buildDAG [⟨"S1", NodeType.Select, [("B", NodeType.Table)]⟩,
            ⟨"B", NodeType.Table, [("A", NodeType.Table)]⟩]

/-- A table created first and referenced by two later statements. -/
def exCreateRef : SimplifiedDAG :=
  buildDAG [⟨"B", NodeType.Table, [("A", NodeType.Table)]⟩,
            ⟨"S1", NodeType.Select, [("B", NodeType.Table)]⟩,
            ⟨"S2", NodeType.Select, [("B", NodeType.Table)]⟩]

/-- `CREATE TABLE B AS SELECT * FROM A` then
`CREATE TABLE C AS SELECT * FROM A, B`. -/
def exScenario : SimplifiedDAG :=
  buildDAG [⟨"B", NodeType.Table, [("A", NodeType.Table)]⟩,
            ⟨"C", NodeType.Table, [("A", NodeType.Table), ("B", NodeType.Table)]⟩]

/-- One table, colored with a style class that has no registered
definition. -/
def exStyled : SimplifiedDAG :=
  (buildDAG [⟨"T", NodeType.Table, []⟩]).set_node_color_rule (fun _ => some "mystyle")

/-- One table, no coloring. -/
def exPlain : SimplifiedDAG :=
  buildDAG [⟨"T", NodeType.Table, []⟩]

/-- A CTE node named `X` in the graph, then a statement reading a table
named `X`. -/
def exCte : SimplifiedDAG :=
  buildDAG [⟨"X", NodeType.CTE, []⟩,
            ⟨"S", NodeType.Select, [("X", NodeType.Table)]⟩]

/-- A depth-two graph: the root `P` depends on `B`, whose own sources
`Z, A` are out of order for the default sort key. -/
def exChain : SimplifiedDAG :=
  buildDAG [⟨"B", NodeType.Table, [("Z", NodeType.Table), ("A", NodeType.Table)]⟩,
            ⟨"P", NodeType.Table, [("B", NodeType.Table)]⟩]

/-- A single created table. -/
def exSingle : SimplifiedDAG :=
  buildDAG [⟨"B", NodeType.Table, []⟩]

/-! Basic algebra of the arena operations. -/

lemma SimplifiedDAG.getNode_setNode_ne (g : SimplifiedDAG) (r : Nat) (n : DAGNode) {j : Nat}
    (h : j ≠ r) : (g.setNode r n).getNode j = g.getNode j := by
  simp [SimplifiedDAG.getNode, SimplifiedDAG.setNode, List.getD_eq_getElem?_getD,
    List.getElem?_set_ne (Ne.symm h)]

lemma SimplifiedDAG.getNode_setNode_self (g : SimplifiedDAG) {r : Nat} (n : DAGNode)
    (h : r < g.arena.length) : (g.setNode r n).getNode r = n := by
  simp [SimplifiedDAG.getNode, SimplifiedDAG.setNode, List.getD_eq_getElem?_getD,
    List.getElem?_set_self h]

lemma SimplifiedDAG.getNode_default (g : SimplifiedDAG) {r : Nat} (h : g.arena.length ≤ r) :
    g.getNode r = DAGNode.init "" NodeType.Table := by
  show g.arena.getD r (DAGNode.init "" NodeType.Table) = _
  exact List.getD_eq_default _ _ h

lemma SimplifiedDAG.setNode_of_length_le (g : SimplifiedDAG) {r : Nat} (n : DAGNode)
    (h : g.arena.length ≤ r) : g.setNode r n = g := by
  simp [SimplifiedDAG.setNode, List.set_eq_of_length_le h]

lemma SimplifiedDAG.length_setNode (g : SimplifiedDAG) (r : Nat) (n : DAGNode) :
    (g.setNode r n).arena.length = g.arena.length := by
  simp [SimplifiedDAG.setNode]

lemma SimplifiedDAG.trees_setNode (g : SimplifiedDAG) (r : Nat) (n : DAGNode) :
    (g.setNode r n).trees = g.trees := rfl

lemma SimplifiedDAG.getNode_swap_source_self (g : SimplifiedDAG) (p i s : Nat) :
    (g.swap_source p i s).getNode p
      = { g.getNode p with sources := (g.getNode p).sources.set i s } := by
  by_cases h : p < g.arena.length
  · exact g.getNode_setNode_self _ h
  · push_neg at h
    rw [SimplifiedDAG.swap_source, g.setNode_of_length_le _ h, g.getNode_default h]
    simp [DAGNode.init]

lemma SimplifiedDAG.getNode_swap_source_ne (g : SimplifiedDAG) (p i s : Nat) {j : Nat}
    (h : j ≠ p) : (g.swap_source p i s).getNode j = g.getNode j :=
  g.getNode_setNode_ne _ _ h

lemma SimplifiedDAG.swap_source_components (g : SimplifiedDAG) (p i s : Nat) :
    (g.swap_source p i s).trees = g.trees ∧ (g.swap_source p i s).next_id = g.next_id
      ∧ (g.swap_source p i s).arena.length = g.arena.length
      ∧ (g.swap_source p i s).colors = g.colors := by
  refine ⟨rfl, rfl, ?_, rfl⟩
  simp [SimplifiedDAG.swap_source, SimplifiedDAG.setNode]

lemma SimplifiedDAG.assign_id_components (g : SimplifiedDAG) (c : Nat) :
    (g.assign_id c).trees = g.trees ∧ (g.assign_id c).next_id = g.next_id + 1
      ∧ (g.assign_id c).arena.length = g.arena.length
      ∧ (g.assign_id c).colors = g.colors := by
  refine ⟨rfl, rfl, ?_, rfl⟩
  simp [SimplifiedDAG.assign_id, SimplifiedDAG.setNode]

lemma SimplifiedDAG.getNode_assign_id_ne (g : SimplifiedDAG) (c : Nat) {j : Nat} (h : j ≠ c) :
    (g.assign_id c).getNode j = g.getNode j := by
  have : (g.assign_id c).getNode j = (g.setNode c { g.getNode c with id := some g.next_id }).getNode j := rfl
  rw [this, g.getNode_setNode_ne _ _ h]

lemma SimplifiedDAG.getNode_assign_id_self (g : SimplifiedDAG) {c : Nat} (h : c < g.arena.length) :
    (g.assign_id c).getNode c = { g.getNode c with id := some g.next_id } := by
  have h2 : (g.assign_id c).getNode c = (g.setNode c { g.getNode c with id := some g.next_id }).getNode c := rfl
  rw [h2, g.getNode_setNode_self _ h]

lemma SimplifiedDAG.sources_assign_id (g : SimplifiedDAG) (c j : Nat) :
    ((g.assign_id c).getNode j).sources = (g.getNode j).sources := by
  by_cases hj : j = c
  · rw [hj]
    by_cases h : c < g.arena.length
    · rw [g.getNode_assign_id_self h]
    · push_neg at h
      have h2 : (g.assign_id c).getNode c = (g.setNode c { g.getNode c with id := some g.next_id }).getNode c := rfl
      rw [h2, g.setNode_of_length_le _ h]
  · rw [g.getNode_assign_id_ne _ hj]

lemma SimplifiedDAG.rem_node_components (g : SimplifiedDAG) (r : Nat) :
    (g.rem_node r).trees = g.trees.erase r ∧ (∀ j, (g.rem_node r).getNode j = g.getNode j)
      ∧ (g.rem_node r).next_id = g.next_id ∧ (g.rem_node r).arena.length = g.arena.length
      ∧ (g.rem_node r).colors = g.colors :=
  ⟨rfl, fun _ => rfl, rfl, rfl, rfl⟩

/-! The walk: bounds and closure under sources, for graphs whose sources
point at strictly smaller references. -/

lemma mem_nodeIter_lt (g : SimplifiedDAG)
    (hdesc : ∀ i : Nat, ∀ s ∈ (g.getNode i).sources, s < i) :
    ∀ (fuel t r : Nat), r ∈ nodeIter g fuel t → r < t := by
  intro fuel
  induction fuel with
  | zero => intro t r hr; simp [nodeIter] at hr
  | succ f ih =>
    intro t r hr
    simp only [nodeIter, List.mem_flatMap, List.mem_cons] at hr
    obtain ⟨s, hs, hr⟩ := hr
    rcases hr with rfl | hr
    · exact hdesc t r hs
    · exact lt_trans (ih s r hr) (hdesc t s hs)

lemma mem_iter_deep_lt (g : SimplifiedDAG)
    (hdesc : ∀ i : Nat, ∀ s ∈ (g.getNode i).sources, s < i)
    (B : Nat) (hB : ∀ t ∈ g.trees, t < B) :
    ∀ r ∈ g.iter_deep, r < B := by
  intro r hr
  simp only [SimplifiedDAG.iter_deep, List.mem_flatMap, List.mem_cons] at hr
  obtain ⟨t, ht, hr⟩ := hr
  rcases hr with rfl | hr
  · exact hB r ht
  · exact lt_trans (mem_nodeIter_lt g hdesc _ t r hr) (hB t ht)

lemma sources_mem_nodeIter (g : SimplifiedDAG)
    (hdesc : ∀ i : Nat, ∀ s ∈ (g.getNode i).sources, s < i) :
    ∀ (fuel t : Nat), t < fuel → ∀ r ∈ nodeIter g fuel t, ∀ s ∈ (g.getNode r).sources,
      s ∈ nodeIter g fuel t := by
  intro fuel
  induction fuel with
  | zero => intro t ht; omega
  | succ f ih =>
    intro t ht r hr s hs
    simp only [nodeIter, List.mem_flatMap, List.mem_cons] at hr ⊢
    obtain ⟨c, hc, hr⟩ := hr
    rcases hr with rfl | hr
    · refine ⟨r, hc, Or.inr ?_⟩
      have hc_lt : r < t := hdesc t r hc
      cases f with
      | zero => omega
      | succ f2 =>
        simp only [nodeIter, List.mem_flatMap, List.mem_cons]
        exact ⟨s, hs, Or.inl rfl⟩
    · have hcf : c < f := lt_of_lt_of_le (hdesc t c hc) (Nat.lt_succ_iff.mp ht)
      exact ⟨c, hc, Or.inr (ih c hcf r hr s hs)⟩

lemma iter_deep_closed (g : SimplifiedDAG)
    (hdesc : ∀ i : Nat, ∀ s ∈ (g.getNode i).sources, s < i)
    (hB : ∀ t ∈ g.trees, t < g.arena.length) :
    ∀ r ∈ g.iter_deep, ∀ s ∈ (g.getNode r).sources, s ∈ g.iter_deep := by
  intro r hr s hs
  simp only [SimplifiedDAG.iter_deep, List.mem_flatMap, List.mem_cons] at hr ⊢
  obtain ⟨t, ht, hr⟩ := hr
  rcases hr with rfl | hr
  · refine ⟨r, ht, Or.inr ?_⟩
    have hlt : r < g.arena.length := hB r ht
    cases h : g.arena.length with
    | zero => omega
    | succ L =>
      simp only [nodeIter, List.mem_flatMap, List.mem_cons]
      exact ⟨s, hs, Or.inl rfl⟩
  · exact ⟨t, ht, Or.inr (sources_mem_nodeIter g hdesc _ t (hB t ht) r hr s hs)⟩

/-! The dedup of `unq_nodes` never fires (its membership test compares a
string with node objects), so it returns the whole walk. -/

lemma foldl_snoc {α : Type} : ∀ (l acc : List α), l.foldl (fun s r => s ++ [r]) acc = acc ++ l := by
  intro l
  induction l with
  | nil => intro acc; simp
  | cons a l ih => intro acc; rw [List.foldl_cons, ih (acc ++ [a])]; simp

lemma SimplifiedDAG.unq_nodes_eq_iter_deep (g : SimplifiedDAG) :
    g.unq_nodes = g.iter_deep := by
  have hfun : (fun (seen : List Nat) (r : Nat) =>
      if seen.any (fun r2 => pyStrEqNode (g.getNode r).name (g.getNode r2))
      then seen else seen ++ [r]) = fun seen r => seen ++ [r] := by
    funext seen r
    simp [pyStrEqNode]
  show (g.iter_deep).foldl _ [] = g.iter_deep
  rw [hfun, foldl_snoc]
  simp

/-! Characterization of one child iteration of `insert`. -/

lemma insertChild_known (g : SimplifiedDAG) (p i c k : Nat)
    (h : findKnown g ((g.getNode c).name) = some k) :
    (insertChild g p i c).trees = g.trees.erase k
      ∧ (insertChild g p i c).getNode p
          = { g.getNode p with sources := (g.getNode p).sources.set i k }
      ∧ (∀ r, r ≠ p → (insertChild g p i c).getNode r = g.getNode r)
      ∧ (insertChild g p i c).next_id = g.next_id
      ∧ (insertChild g p i c).arena.length = g.arena.length
      ∧ (insertChild g p i c).colors = g.colors := by
  rw [insertChild, h]
  by_cases hk : k ∈ g.trees
  · simp only [hk, if_pos]
    refine ⟨rfl, ?_, ?_, rfl, ?_, rfl⟩
    · exact (g.rem_node k).getNode_swap_source_self p i k
    · intro r hr
      exact (g.rem_node k).getNode_swap_source_ne p i k hr
    · exact ((g.rem_node k).swap_source_components p i k).2.2.1
  · simp only [hk, if_neg, not_false_iff]
    rw [List.erase_of_not_mem hk]
    refine ⟨rfl, ?_, ?_, rfl, ?_, rfl⟩
    · exact g.getNode_swap_source_self p i k
    · intro r hr
      exact g.getNode_swap_source_ne p i k hr
    · exact (g.swap_source_components p i k).2.2.1

lemma insertChild_none (g : SimplifiedDAG) (p i c : Nat)
    (h : findKnown g ((g.getNode c).name) = none) :
    (insertChild g p i c).trees = g.trees
      ∧ (c < g.arena.length →
          (insertChild g p i c).getNode c = { g.getNode c with id := some g.next_id })
      ∧ (∀ r, r ≠ c → (insertChild g p i c).getNode r = g.getNode r)
      ∧ (∀ j, ((insertChild g p i c).getNode j).sources = (g.getNode j).sources)
      ∧ (insertChild g p i c).next_id = g.next_id + 1
      ∧ (insertChild g p i c).arena.length = g.arena.length
      ∧ (insertChild g p i c).colors = g.colors := by
  rw [insertChild, h]
  exact ⟨rfl, fun hc => g.getNode_assign_id_self hc, fun r hr => g.getNode_assign_id_ne _ hr,
    fun j => g.sources_assign_id c j, rfl, (g.assign_id_components c).2.2.1, rfl⟩

lemma findKnown_mem_iter_deep (g : SimplifiedDAG) (nm : String) (k : Nat)
    (h : findKnown g nm = some k) : k ∈ g.iter_deep :=
  List.mem_of_find?_eq_some h

lemma insertChild_LInv (B p : Nat) (hBp : B ≤ p) (g : SimplifiedDAG) (i c : Nat)
    (hg : LInv B p g) : LInv B p (insertChild g p i c) := by
  cases hfk : findKnown g ((g.getNode c).name) with
  | some k =>
    obtain ⟨htrees, hp, hne, hnid, hlen, hcol⟩ := insertChild_known g p i c k hfk
    have hkB : k < B :=
      mem_iter_deep_lt g hg.desc B hg.boundB k (findKnown_mem_iter_deep g _ k hfk)
    have hknotin : k ∉ (insertChild g p i c).trees := by
      rw [htrees]
      by_cases hk : k ∈ g.trees
      · exact (hg.nodup).not_mem_erase
      · intro hcon
        exact hk (List.mem_of_mem_erase hcon)
    refine ⟨?_, ?_, ?_, ?_, ?_⟩
    · intro t ht j
      have htg : t ∈ g.trees := List.mem_of_mem_erase (htrees ▸ ht)
      have htk : t ≠ k := fun hek => hknotin (hek ▸ ht)
      by_cases hjp : j = p
      · rw [hjp, hp]
        intro hmem
        rcases List.mem_or_eq_of_mem_set hmem with hmem | rfl
        · exact hg.notSrc t htg p hmem
        · exact htk rfl
      · rw [hne j hjp]
        exact hg.notSrc t htg j
    · rw [htrees]
      exact hg.nodup.erase k
    · intro t ht
      exact hg.boundB t (List.mem_of_mem_erase (htrees ▸ ht))
    · intro j s hs
      by_cases hjp : j = p
      · rw [hjp, hp] at hs
        rcases List.mem_or_eq_of_mem_set hs with hs | rfl
        · exact hjp ▸ hg.desc p s hs
        · exact hjp ▸ lt_of_lt_of_le hkB hBp
      · rw [hne j hjp] at hs
        exact hg.desc j s hs
    · rw [hlen]
      exact hg.lenEq
  | none =>
    obtain ⟨htrees, _, _, hsrc, _, hlen, _⟩ := insertChild_none g p i c hfk
    refine ⟨?_, htrees ▸ hg.nodup, ?_, ?_, hlen ▸ hg.lenEq⟩
    · intro t ht j
      rw [hsrc j]
      exact hg.notSrc t (htrees ▸ ht) j
    · intro t ht
      exact hg.boundB t (htrees ▸ ht)
    · intro j s hs
      rw [hsrc j] at hs
      exact hg.desc j s hs

lemma foldl_insertChild_LInv (B p : Nat) (hBp : B ≤ p) :
    ∀ (l : List (Nat × Nat)) (g : SimplifiedDAG), LInv B p g →
      LInv B p (l.foldl (fun gacc ic => insertChild gacc p ic.1 ic.2) g) := by
  intro l
  induction l with
  | nil => intro g hg; exact hg
  | cons a l ih =>
    intro g hg
    rw [List.foldl_cons]
    exact ih _ (insertChild_LInv B p hBp g a.1 a.2 hg)

/-! Allocation of the objects of one statement, in closed form. -/

lemma allocChildren_spec (cs : List (String × NodeType)) :
    ∀ g : SimplifiedDAG,
      (allocChildren g cs).1
          = { g with arena := g.arena ++ cs.map (fun c => DAGNode.init c.1 c.2) }
        ∧ (allocChildren g cs).2 = List.range' g.arena.length cs.length := by
  induction cs with
  | nil => intro g; simp [allocChildren]
  | cons c cs ih =>
    intro g
    obtain ⟨h1, h2⟩ := ih { g with arena := g.arena ++ [DAGNode.init c.1 c.2] }
    have e1 : (allocChildren g (c :: cs)).1
        = (allocChildren { g with arena := g.arena ++ [DAGNode.init c.1 c.2] } cs).1 := rfl
    have e2 : (allocChildren g (c :: cs)).2
        = g.arena.length
            :: (allocChildren { g with arena := g.arena ++ [DAGNode.init c.1 c.2] } cs).2 := rfl
    constructor
    · rw [e1, h1]
      simp
    · rw [e2, h2]
      simp [List.range'_succ]

lemma mkStmtNodes_spec (g : SimplifiedDAG) (s : Stmt) :
    (mkStmtNodes g s).1
        = { g with arena := g.arena ++ s.children.map (fun c => DAGNode.init c.1 c.2)
                              ++ [parentNode g s] }
      ∧ (mkStmtNodes g s).2 = g.arena.length + s.children.length := by
  obtain ⟨h1, h2⟩ := allocChildren_spec s.children g
  constructor
  · show (allocNode (allocChildren g s.children).1 _).1 = _
    rw [allocNode, h1, h2]
    simp [parentNode, List.append_assoc]
  · show (allocNode (allocChildren g s.children).1 _).2 = _
    rw [allocNode, h1]
    simp

lemma getNode_arena_append_lt (g : SimplifiedDAG) (ext : List DAGNode) {j : Nat}
    (h : j < g.arena.length) :
    ({ g with arena := g.arena ++ ext } : SimplifiedDAG).getNode j = g.getNode j := by
  show (g.arena ++ ext).getD j _ = g.arena.getD j _
  exact List.getD_append _ _ _ j h

lemma getNode_arena_append_ge (g : SimplifiedDAG) (ext : List DAGNode) {j : Nat}
    (h : g.arena.length ≤ j) :
    ({ g with arena := g.arena ++ ext } : SimplifiedDAG).getNode j
      = ext.getD (j - g.arena.length) (DAGNode.init "" NodeType.Table) := by
  show (g.arena ++ ext).getD j _ = _
  exact List.getD_append_right _ _ _ j h

lemma mkStmtNodes_sources (g : SimplifiedDAG) (s : Stmt) (j : Nat) :
    (((mkStmtNodes g s).1).getNode j).sources
      = if j < g.arena.length then (g.getNode j).sources
        else if j = g.arena.length + s.children.length
        then List.range' g.arena.length s.children.length
        else [] := by
  obtain ⟨h1, _⟩ := mkStmtNodes_spec g s
  have harena : (mkStmtNodes g s).1
      = { g with arena := g.arena
            ++ (s.children.map (fun c => DAGNode.init c.1 c.2) ++ [parentNode g s]) } := by
    rw [h1]
    simp
  rw [harena]
  by_cases hj : j < g.arena.length
  · rw [getNode_arena_append_lt _ _ hj, if_pos hj]
  · push_neg at hj
    rw [getNode_arena_append_ge _ _ hj, if_neg (by omega)]
    by_cases hk : j - g.arena.length < s.children.length
    · rw [if_neg (by omega)]
      rw [List.getD_append _ _ _ _ (by simpa using hk)]
      rw [List.getD_eq_getElem?_getD, List.getElem?_map]
      rw [List.getElem?_eq_getElem hk]
      rfl
    · push_neg at hk
      by_cases hp : j - g.arena.length = s.children.length
      · rw [if_pos (by omega)]
        rw [List.getD_append_right _ _ _ _ (by simpa using hk), hp]
        simp [parentNode]
      · rw [if_neg (by omega)]
        rw [List.getD_append_right _ _ _ _ (by simpa using hk)]
        rw [List.getD_eq_default _ _ (by simp; omega)]
        rfl

lemma mkStmtNodes_LInv (g : SimplifiedDAG) (s : Stmt) (hg : DAGInv g) :
    LInv g.arena.length ((mkStmtNodes g s).2) ((mkStmtNodes g s).1) := by
  obtain ⟨h1, h2⟩ := mkStmtNodes_spec g s
  have htrees : (mkStmtNodes g s).1.trees = g.trees := by rw [h1]
  have hlen : (mkStmtNodes g s).1.arena.length
      = g.arena.length + s.children.length + 1 := by
    rw [h1]
    simp
    omega
  refine ⟨?_, ?_, ?_, ?_, ?_⟩
  · intro t ht i
    rw [htrees] at ht
    have htL : t < g.arena.length := hg.bound t ht
    rw [mkStmtNodes_sources g s i]
    split_ifs with hi1 hi2
    · exact hg.notSrc t ht i
    · intro hcon
      rw [List.mem_range'] at hcon
      obtain ⟨w, hw, hweq⟩ := hcon
      omega
    · simp
  · rw [htrees]
    exact hg.nodup
  · intro t ht
    rw [htrees] at ht
    exact hg.bound t ht
  · intro i s2 hs2
    rw [mkStmtNodes_sources g s i] at hs2
    split_ifs at hs2 with hi1 hi2
    · exact hg.desc i s2 hs2
    · rw [List.mem_range'] at hs2
      obtain ⟨w, hw, hweq⟩ := hs2
      omega
    · simp at hs2
  · rw [hlen, h2]

lemma add_node_components (g : SimplifiedDAG) (r : Nat) :
    (g.add_node r).trees = g.trees ++ [r]
      ∧ (∀ j, ((g.add_node r).getNode j).sources = (g.getNode j).sources)
      ∧ (g.add_node r).arena.length = g.arena.length
      ∧ (g.add_node r).next_id = g.next_id + 1
      ∧ (r < g.arena.length →
          (g.add_node r).getNode r = { g.getNode r with id := some g.next_id })
      ∧ (∀ j, j ≠ r → (g.add_node r).getNode j = g.getNode j) := by
  refine ⟨rfl, ?_, (g.assign_id_components r).2.2.1, rfl, ?_, ?_⟩
  · intro j
    exact g.sources_assign_id r j
  · intro h
    exact g.getNode_assign_id_self h
  · intro j hj
    exact g.getNode_assign_id_ne r hj

lemma add_node_DAGInv (B p : Nat) (hBp : B ≤ p) (g2 : SimplifiedDAG) (h : LInv B p g2) :
    DAGInv (g2.add_node p) := by
  obtain ⟨htrees, hsrc, hlen, _, _, _⟩ := add_node_components g2 p
  refine ⟨?_, ?_, ?_, ?_⟩
  · intro t ht i
    rw [htrees] at ht
    rw [hsrc i]
    rcases List.mem_append.mp ht with ht | ht
    · exact h.notSrc t ht i
    · have htp : t = p := by simpa using ht
      subst htp
      intro hcon
      have hip : t < i := h.desc i t hcon
      by_cases hilen : i < g2.arena.length
      · have hl := h.lenEq
        omega
      · have hnil : (g2.getNode i).sources = [] := by
          rw [g2.getNode_default (le_of_not_lt hilen)]
          rfl
        rw [hnil] at hcon
        simp at hcon
  · rw [htrees]
    rw [List.nodup_append]
    refine ⟨h.nodup, List.nodup_singleton p, ?_⟩
    intro t ht hteq
    have htp : t = p := by simpa using hteq
    have htB := h.boundB t ht
    omega
  · intro t ht
    rw [htrees] at ht
    rw [hlen, h.lenEq]
    rcases List.mem_append.mp ht with ht | ht
    · have := h.boundB t ht
      omega
    · have : t = p := by simpa using ht
      omega
  · intro i s hs
    rw [hsrc i] at hs
    exact h.desc i s hs

lemma insertStmt_DAGInv (g : SimplifiedDAG) (s : Stmt) (hg : DAGInv g) :
    DAGInv (insertStmt g s) := by
  have heq : insertStmt g s
      = ((mkStmtNodes g s).1.insert (mkStmtNodes g s).2) := rfl
  rw [heq, SimplifiedDAG.insert]
  have hL : LInv g.arena.length ((mkStmtNodes g s).2) ((mkStmtNodes g s).1) :=
    mkStmtNodes_LInv g s hg
  have hBp : g.arena.length ≤ (mkStmtNodes g s).2 := by
    rw [(mkStmtNodes_spec g s).2]
    exact Nat.le_add_right _ _
  have hloop : LInv g.arena.length ((mkStmtNodes g s).2)
      (insertLoop (mkStmtNodes g s).1 (mkStmtNodes g s).2) :=
    foldl_insertChild_LInv _ _ hBp _ _ hL
  exact add_node_DAGInv _ _ hBp _ hloop

lemma buildDAG_DAGInv (stmts : List Stmt) : DAGInv (buildDAG stmts) := by
  have hbase : DAGInv SimplifiedDAG.empty := by
    refine ⟨?_, ?_, ?_, ?_⟩
    · intro t ht i
      simp [SimplifiedDAG.empty] at ht
    · simp [SimplifiedDAG.empty]
    · intro t ht
      simp [SimplifiedDAG.empty] at ht
    · intro i s hs
      have : (SimplifiedDAG.empty.getNode i) = DAGNode.init "" NodeType.Table :=
        SimplifiedDAG.getNode_default _ (by simp [SimplifiedDAG.empty])
      rw [this] at hs
      simp [DAGNode.init] at hs
  have h : ∀ (l : List Stmt) (g : SimplifiedDAG), DAGInv g → DAGInv (l.foldl insertStmt g) := by
    intro l
    induction l with
    | nil => intro g hg; exact hg
    | cons a l ih =>
      intro g hg
      rw [List.foldl_cons]
      exact ih _ (insertStmt_DAGInv g a hg)
  exact h stmts _ hbase

/-! Properties of the stable sort. -/

lemma insSorted_perm {α : Type} (le : α → α → Bool) (a : α) :
    ∀ l : List α, (insSorted le a l).Perm (a :: l) := by
  intro l
  induction l with
  | nil => rfl
  | cons b l ih =>
    rw [insSorted]
    by_cases h : le b a
    · rw [if_pos h]
      exact (ih.cons b).trans (List.Perm.swap a b l)
    · rw [if_neg h]

lemma mem_insSorted {α : Type} (le : α → α → Bool) (a x : α) (l : List α) :
    x ∈ insSorted le a l ↔ x = a ∨ x ∈ l := by
  rw [(insSorted_perm le a l).mem_iff, List.mem_cons]

lemma sortL_perm {α : Type} (le : α → α → Bool) (l : List α) : (sortL le l).Perm l := by
  have h : ∀ (l0 acc : List α),
      (l0.foldl (fun acc a => insSorted le a acc) acc).Perm (acc ++ l0) := by
    intro l0
    induction l0 with
    | nil => intro acc; simp
    | cons a l0 ih =>
      intro acc
      rw [List.foldl_cons]
      refine (ih (insSorted le a acc)).trans ?_
      refine (List.Perm.append_right l0 (insSorted_perm le a acc)).trans ?_
      exact List.perm_middle.symm
  simpa using h l []

lemma insSorted_pairwise {α : Type} (le : α → α → Bool)
    (htot : ∀ a b : α, le a b = true ∨ le b a = true)
    (htrans : ∀ a b c : α, le a b = true → le b c = true → le a c = true) (a : α) :
    ∀ l : List α, l.Pairwise (fun x y => le x y = true) →
      (insSorted le a l).Pairwise (fun x y => le x y = true) := by
  intro l
  induction l with
  | nil => intro _; simp [insSorted]
  | cons b l ih =>
    intro h
    obtain ⟨hb, hl⟩ := List.pairwise_cons.mp h
    rw [insSorted]
    by_cases hba : le b a
    · rw [if_pos hba]
      rw [List.pairwise_cons]
      refine ⟨?_, ih hl⟩
      intro y hy
      rcases (mem_insSorted le a y l).mp hy with rfl | hy
      · exact hba
      · exact hb y hy
    · rw [if_neg hba]
      rw [List.pairwise_cons]
      have hab : le a b = true := by
        rcases htot a b with h2 | h2
        · exact h2
        · exact absurd h2 (by simpa using hba)
      refine ⟨?_, h⟩
      intro y hy
      rcases List.mem_cons.mp hy with rfl | hy
      · exact hab
      · exact htrans a b y hab (hb y hy)

lemma sortL_pairwise {α : Type} (le : α → α → Bool)
    (htot : ∀ a b : α, le a b = true ∨ le b a = true)
    (htrans : ∀ a b c : α, le a b = true → le b c = true → le a c = true) (l : List α) :
    (sortL le l).Pairwise (fun x y => le x y = true) := by
  have h : ∀ (l0 acc : List α), acc.Pairwise (fun x y => le x y = true) →
      (l0.foldl (fun acc a => insSorted le a acc) acc).Pairwise (fun x y => le x y = true) := by
    intro l0
    induction l0 with
    | nil => intro acc h; exact h
    | cons a l0 ih =>
      intro acc h
      rw [List.foldl_cons]
      exact ih _ (insSorted_pairwise le htot htrans a acc h)
  exact h l [] (by simp)

lemma insSorted_congr {α : Type} (le1 le2 : α → α → Bool) (a : α) :
    ∀ l : List α, (∀ x ∈ a :: l, ∀ y ∈ a :: l, le1 x y = le2 x y) →
      insSorted le1 a l = insSorted le2 a l := by
  intro l
  induction l with
  | nil => intro _; rfl
  | cons b l ih =>
    intro h
    have hba : le1 b a = le2 b a :=
      h b (by simp) a (by simp)
    rw [insSorted, insSorted, hba]
    by_cases h2 : le2 b a
    · rw [if_pos h2, if_pos h2]
      rw [ih]
      intro x hx y hy
      refine h x ?_ y ?_
      · rcases List.mem_cons.mp hx with rfl | hx
        · simp
        · simp [hx]
      · rcases List.mem_cons.mp hy with rfl | hy
        · simp
        · simp [hy]
    · rw [if_neg h2, if_neg h2]

lemma sortL_congr {α : Type} (le1 le2 : α → α → Bool) (l : List α)
    (h : ∀ x ∈ l, ∀ y ∈ l, le1 x y = le2 x y) : sortL le1 l = sortL le2 l := by
  have hgen : ∀ (l0 acc : List α), (∀ x ∈ acc, x ∈ l) → (∀ x ∈ l0, x ∈ l) →
      l0.foldl (fun acc a => insSorted le1 a acc) acc
        = l0.foldl (fun acc a => insSorted le2 a acc) acc := by
    intro l0
    induction l0 with
    | nil => intro acc _ _; rfl
    | cons a l0 ih =>
      intro acc hacc hl0
      rw [List.foldl_cons, List.foldl_cons]
      have hstep : insSorted le1 a acc = insSorted le2 a acc := by
        refine insSorted_congr le1 le2 a acc ?_
        intro x hx y hy
        refine h x ?_ y ?_
        · rcases List.mem_cons.mp hx with rfl | hx
          · exact hl0 x (by simp)
          · exact hacc x hx
        · rcases List.mem_cons.mp hy with rfl | hy
          · exact hl0 y (by simp)
          · exact hacc y hy
      rw [hstep]
      refine ih (insSorted le2 a acc) ?_ ?_
      · intro x hx
        rcases (mem_insSorted le2 a x acc).mp hx with rfl | hx
        · exact hl0 x (by simp)
        · exact hacc x hx
      · intro x hx
        exact hl0 x (List.mem_cons_of_mem _ hx)
  exact hgen l [] (by simp) (fun x hx => hx)

/-! The default comparator is the ascending lexicographic order on the
default sort keys. -/

lemma charListLt_irrefl : ∀ as : List Char, charListLt as as = false := by
  intro as
  induction as with
  | nil => rfl
  | cons a as ih => simp [charListLt, ih]

lemma strLt_irrefl (s : String) : strLt s s = false :=
  charListLt_irrefl s.data

lemma charListLt_asymm : ∀ as bs : List Char,
    charListLt as bs = true → charListLt bs as = false := by
  intro as
  induction as with
  | nil =>
    intro bs h
    cases bs with
    | nil => exact absurd h (by simp [charListLt])
    | cons b bs => rfl
  | cons a as ih =>
    intro bs h
    cases bs with
    | nil => exact absurd h (by simp [charListLt])
    | cons b bs =>
      rw [charListLt] at h ⊢
      by_cases h1 : a.toNat < b.toNat
      · rw [if_neg (by omega), if_pos (by omega)]
      · rw [if_neg h1] at h
        by_cases h2 : b.toNat < a.toNat
        · rw [if_pos h2] at h
          exact absurd h (by simp [charListLt])
        · rw [if_neg h2] at h
          rw [if_neg (by omega), if_neg (by omega)]
          exact ih bs h

lemma charListLt_connex : ∀ as bs : List Char,
    charListLt as bs = false → charListLt bs as = false → as = bs := by
  intro as
  induction as with
  | nil =>
    intro bs h1 _
    cases bs with
    | nil => rfl
    | cons b bs => exact absurd h1 (by simp [charListLt])
  | cons a as ih =>
    intro bs h1 h2
    cases bs with
    | nil => exact absurd h2 (by simp [charListLt])
    | cons b bs =>
      rw [charListLt] at h1 h2
      by_cases hab : a.toNat < b.toNat
      · rw [if_pos hab] at h1
        exact absurd h1 (by simp [charListLt])
      · by_cases hba : b.toNat < a.toNat
        · rw [if_pos hba] at h2
          exact absurd h2 (by simp [charListLt])
        · rw [if_neg hab, if_neg hba] at h1
          rw [if_neg hba, if_neg hab] at h2
          have hchar : a = b := by
            apply Char.ext
            apply UInt32.ext
            show a.toNat = b.toNat
            omega
          rw [hchar, ih bs h1 h2]

lemma charListLt_trans : ∀ as bs cs : List Char,
    charListLt as bs = true → charListLt bs cs = true → charListLt as cs = true := by
  intro as
  induction as with
  | nil =>
    intro bs cs h1 h2
    cases cs with
    | nil =>
      cases bs with
      | nil => exact absurd h1 (by simp [charListLt])
      | cons b bs => exact absurd h2 (by simp [charListLt])
    | cons c cs => rfl
  | cons a as ih =>
    intro bs cs h1 h2
    cases bs with
    | nil => exact absurd h1 (by simp [charListLt])
    | cons b bs =>
      cases cs with
      | nil => exact absurd h2 (by simp [charListLt])
      | cons c cs =>
        rw [charListLt] at h1 h2 ⊢
        by_cases hab : a.toNat < b.toNat
        · by_cases hbc : b.toNat < c.toNat
          · rw [if_pos (by omega)]
          · rw [if_neg hbc] at h2
            by_cases hcb : c.toNat < b.toNat
            · rw [if_pos hcb] at h2
              exact absurd h2 (by simp [charListLt])
            · rw [if_pos (by omega)]
        · rw [if_neg hab] at h1
          by_cases hba : b.toNat < a.toNat
          · rw [if_pos hba] at h1
            exact absurd h1 (by simp [charListLt])
          · rw [if_neg hba] at h1
            by_cases hbc : b.toNat < c.toNat
            · rw [if_pos (by omega)]
            · rw [if_neg hbc] at h2
              by_cases hcb : c.toNat < b.toNat
              · rw [if_pos hcb] at h2
                exact absurd h2 (by simp [charListLt])
              · rw [if_neg hcb] at h2
                rw [if_neg (by omega), if_neg (by omega)]
                exact ih bs cs h1 h2

lemma strLt_asymm (a b : String) (h : strLt a b = true) : strLt b a = false :=
  charListLt_asymm a.data b.data h

lemma strLt_connex (a b : String) (h1 : strLt a b = false) (h2 : strLt b a = false) :
    a = b := by
  cases a with
  | mk da =>
    cases b with
    | mk db =>
      have : da = db := charListLt_connex da db h1 h2
      rw [this]

lemma strLt_trans (a b c : String) (h1 : strLt a b = true) (h2 : strLt b c = true) :
    strLt a c = true :=
  charListLt_trans a.data b.data c.data h1 h2

lemma strLe_total (a b : String) : strLe a b = true ∨ strLe b a = true := by
  by_cases h1 : strLt a b = true
  · exact Or.inl (by simp [strLe, h1])
  · by_cases h2 : strLt b a = true
    · exact Or.inr (by simp [strLe, h2])
    · have : a = b := strLt_connex a b (by simpa using h1) (by simpa using h2)
      exact Or.inl (by simp [strLe, this])

lemma strLe_trans (a b c : String) (h1 : strLe a b = true) (h2 : strLe b c = true) :
    strLe a c = true := by
  rw [strLe, Bool.or_eq_true, beq_iff_eq] at h1 h2 ⊢
  rcases h1 with h1 | h1
  · rcases h2 with h2 | h2
    · exact Or.inl (strLt_trans a b c h1 h2)
    · exact Or.inl (h2 ▸ h1)
  · rcases h2 with h2 | h2
    · exact Or.inl (h1 ▸ h2)
    · exact Or.inr (h1.trans h2)

lemma keyLe_iff (a b : Nat × String × String) :
    keyLe a b = true
      ↔ (a.1 < b.1
          ∨ (a.1 = b.1
              ∧ (strLt a.2.1 b.2.1 = true
                  ∨ (a.2.1 = b.2.1 ∧ strLe a.2.2 b.2.2 = true)))) := by
  unfold keyLe
  by_cases h1 : a.1 = b.1
  · by_cases h2 : a.2.1 = b.2.1
    · simp [h1, h2, strLt_irrefl]
    · simp [h1, h2]
  · simp [h1]
    omega

lemma keyLe_total (a b : Nat × String × String) : keyLe a b = true ∨ keyLe b a = true := by
  rw [keyLe_iff, keyLe_iff]
  rcases Nat.lt_trichotomy a.1 b.1 with h | h | h
  · exact Or.inl (Or.inl h)
  · by_cases h2 : strLt a.2.1 b.2.1 = true
    · exact Or.inl (Or.inr ⟨h, Or.inl h2⟩)
    · by_cases h3 : strLt b.2.1 a.2.1 = true
      · exact Or.inr (Or.inr ⟨h.symm, Or.inl h3⟩)
      · have he : a.2.1 = b.2.1 :=
          strLt_connex _ _ (by simpa using h2) (by simpa using h3)
        rcases strLe_total a.2.2 b.2.2 with h4 | h4
        · exact Or.inl (Or.inr ⟨h, Or.inr ⟨he, h4⟩⟩)
        · exact Or.inr (Or.inr ⟨h.symm, Or.inr ⟨he.symm, h4⟩⟩)
  · exact Or.inr (Or.inl h)

lemma keyLe_trans (a b c : Nat × String × String)
    (h1 : keyLe a b = true) (h2 : keyLe b c = true) : keyLe a c = true := by
  rw [keyLe_iff] at h1 h2 ⊢
  rcases h1 with h1 | ⟨e1, h1⟩
  · rcases h2 with h2 | ⟨e2, h2⟩
    · exact Or.inl (lt_trans h1 h2)
    · exact Or.inl (by omega)
  · rcases h2 with h2 | ⟨e2, h2⟩
    · exact Or.inl (by omega)
    · refine Or.inr ⟨e1.trans e2, ?_⟩
      rcases h1 with h1 | ⟨f1, h1⟩
      · rcases h2 with h2 | ⟨f2, h2⟩
        · exact Or.inl (strLt_trans _ _ _ h1 h2)
        · exact Or.inl (f2 ▸ h1)
      · rcases h2 with h2 | ⟨f2, h2⟩
        · exact Or.inl (f1 ▸ h2)
        · exact Or.inr ⟨f1.trans f2, strLe_trans _ _ _ h1 h2⟩

lemma defaultLe_total (a b : DAGNode) : defaultLe a b = true ∨ defaultLe b a = true :=
  keyLe_total (default_sort_rule a) (default_sort_rule b)

lemma defaultLe_trans (a b c : DAGNode)
    (h1 : defaultLe a b = true) (h2 : defaultLe b c = true) : defaultLe a c = true :=
  keyLe_trans _ _ _ h1 h2

/-! The per-root folds of `set_node_color_rule` and of the second phase of
`sort`. -/

lemma foldl_color (cb : DAGNode → Option String) :
    ∀ (l : List Nat) (g : SimplifiedDAG) (r : Nat),
      (r ∉ l →
        (l.foldl (fun gacc b => gacc.setNode b { gacc.getNode b with color := cb (gacc.getNode b) }) g).getNode r
          = g.getNode r)
      ∧ (l.Nodup → r ∈ l → r < g.arena.length →
        (l.foldl (fun gacc b => gacc.setNode b { gacc.getNode b with color := cb (gacc.getNode b) }) g).getNode r
          = { g.getNode r with color := cb (g.getNode r) }) := by
  intro l
  induction l with
  | nil =>
    intro g r
    refine ⟨fun _ => rfl, fun _ hr => absurd hr (by simp)⟩
  | cons b l ih =>
    intro g r
    constructor
    · intro hr
      rw [List.foldl_cons]
      have hrb : r ≠ b := fun h => hr (h ▸ List.mem_cons_self b l)
      have hrl : r ∉ l := fun h => hr (List.mem_cons_of_mem _ h)
      rw [(ih _ r).1 hrl, g.getNode_setNode_ne _ _ hrb]
    · intro hnd hr hlen
      rw [List.foldl_cons]
      rcases List.mem_cons.mp hr with rfl | hr
      · have hrl : r ∉ l := (List.nodup_cons.mp hnd).1
        rw [(ih _ r).1 hrl]
        exact g.getNode_setNode_self _ hlen
      · have hnd2 : l.Nodup := (List.nodup_cons.mp hnd).2
        have hrb : r ≠ b := fun h => (List.nodup_cons.mp hnd).1 (h ▸ hr)
        have hlen2 : r < (g.setNode b { g.getNode b with color := cb (g.getNode b) }).arena.length := by
          rw [g.length_setNode]
          exact hlen
        rw [(ih _ r).2 hnd2 hr hlen2, g.getNode_setNode_ne _ _ hrb]

lemma foldl_sortphase (le : DAGNode → DAGNode → Bool) :
    ∀ (l : List Nat) (g : SimplifiedDAG) (r : Nat),
      (r ∉ l →
        (l.foldl (fun gacc t => gacc.setNode t
            { gacc.getNode t with
              sources := sortL (fun a b => le (gacc.getNode a) (gacc.getNode b)) (gacc.getNode t).sources }) g).getNode r
          = g.getNode r)
      ∧ (l.Nodup → r ∈ l → r < g.arena.length →
          (∀ t ∈ l, ∀ s ∈ (g.getNode t).sources, s ∉ l) →
        (l.foldl (fun gacc t => gacc.setNode t
            { gacc.getNode t with
              sources := sortL (fun a b => le (gacc.getNode a) (gacc.getNode b)) (gacc.getNode t).sources }) g).getNode r
          = { g.getNode r with
              sources := sortL (fun a b => le (g.getNode a) (g.getNode b)) (g.getNode r).sources }) := by
  intro l
  induction l with
  | nil =>
    intro g r
    refine ⟨fun _ => rfl, fun _ hr => absurd hr (by simp)⟩
  | cons b l ih =>
    intro g r
    constructor
    · intro hr
      rw [List.foldl_cons]
      have hrb : r ≠ b := fun h => hr (h ▸ List.mem_cons_self b l)
      have hrl : r ∉ l := fun h => hr (List.mem_cons_of_mem _ h)
      rw [(ih _ r).1 hrl, g.getNode_setNode_ne _ _ hrb]
    · intro hnd hr hlen hsrc
      rw [List.foldl_cons]
      rcases List.mem_cons.mp hr with rfl | hr
      · have hrl : r ∉ l := (List.nodup_cons.mp hnd).1
        rw [(ih _ r).1 hrl]
        exact g.getNode_setNode_self _ hlen
      · have hnd2 : l.Nodup := (List.nodup_cons.mp hnd).2
        have hrb : r ≠ b := fun h => (List.nodup_cons.mp hnd).1 (h ▸ hr)
        set g1 := g.setNode b
          { g.getNode b with
            sources := sortL (fun a b2 => le (g.getNode a) (g.getNode b2)) (g.getNode b).sources } with hg1
        have hlen2 : r < g1.arena.length := by
          rw [hg1, g.length_setNode]
          exact hlen
        have hsrc2 : ∀ t ∈ l, ∀ s ∈ (g1.getNode t).sources, s ∉ l := by
          intro t ht s hs
          have htb : t ≠ b := fun h => (List.nodup_cons.mp hnd).1 (h ▸ ht)
          rw [hg1, g.getNode_setNode_ne _ _ htb] at hs
          intro hcon
          exact hsrc t (List.mem_cons_of_mem _ ht) s hs (List.mem_cons_of_mem _ hcon)
        rw [(ih g1 r).2 hnd2 hr hlen2 hsrc2]
        have hng : g1.getNode r = g.getNode r := by
          rw [hg1]
          exact g.getNode_setNode_ne _ _ hrb
        rw [hng]
        have hcmp : sortL (fun a b2 => le (g1.getNode a) (g1.getNode b2)) (g.getNode r).sources
            = sortL (fun a b2 => le (g.getNode a) (g.getNode b2)) (g.getNode r).sources := by
          refine sortL_congr _ _ _ ?_
          intro x hx y hy
          have hxb : x ≠ b := by
            intro hcon
            exact hsrc r (List.mem_cons_of_mem _ hr) x hx (hcon ▸ List.mem_cons_self b l)
          have hyb : y ≠ b := by
            intro hcon
            exact hsrc r (List.mem_cons_of_mem _ hr) y hy (hcon ▸ List.mem_cons_self b l)
          rw [hg1, g.getNode_setNode_ne _ _ hxb, g.getNode_setNode_ne _ _ hyb]
        rw [hcmp]

lemma insertChild_length (g : SimplifiedDAG) (p i c : Nat) :
    (insertChild g p i c).arena.length = g.arena.length := by
  cases hfk : findKnown g ((g.getNode c).name) with
  | some k => exact (insertChild_known g p i c k hfk).2.2.2.2.1
  | none => exact (insertChild_none g p i c hfk).2.2.2.2.2.1

lemma insertLoop_length (g : SimplifiedDAG) (p : Nat) :
    (insertLoop g p).arena.length = g.arena.length := by
  have h : ∀ (l : List (Nat × Nat)) (g0 : SimplifiedDAG),
      (l.foldl (fun gacc ic => insertChild gacc p ic.1 ic.2) g0).arena.length
        = g0.arena.length := by
    intro l
    induction l with
    | nil => intro g0; rfl
    | cons a l ih =>
      intro g0
      rw [List.foldl_cons, ih, insertChild_length]
  exact h _ g

lemma trees_foldl_sortphase (le : DAGNode → DAGNode → Bool) :
    ∀ (l : List Nat) (g : SimplifiedDAG),
      (l.foldl (fun gacc t => gacc.setNode t
          { gacc.getNode t with
            sources := sortL (fun a b => le (gacc.getNode a) (gacc.getNode b)) (gacc.getNode t).sources }) g).trees
        = g.trees := by
  intro l
  induction l with
  | nil => intro g; rfl
  | cons b l ih =>
    intro g
    rw [List.foldl_cons, ih]
    rfl

/-- C1: the counterexample.  The spec claims every non-CTE name denotes a
single node object after any insert sequence, in particular when a name is
first referenced as a dependency and later created.  Running exactly that
sequence (`SELECT ... FROM B`, then `CREATE TABLE B AS SELECT ... FROM A`)
leaves two distinct non-CTE node objects named `B` in the graph: the insert
algorithm looks up only the children of the new statement, never the parent
itself. -/
theorem c1_counterexample :
    ((exRefCreate.iter_deep).filter
        (fun r => (exRefCreate.getNode r).name == "B"
          && (exRefCreate.getNode r).node_t != NodeType.CTE)).dedup = [0, 3]
      ∧ (exRefCreate.getNode 0).name = "B"
      ∧ (exRefCreate.getNode 3).name = "B"
      ∧ (exRefCreate.getNode 0).node_t ≠ NodeType.CTE
      ∧ (exRefCreate.getNode 3).node_t ≠ NodeType.CTE
      ∧ (0 : Nat) ≠ 3 := by
  decide

/-- C1 (amended): merging applies to dependency placeholders only.  When a
table is created first and referenced by two later statements, both
consumers share the single original vertex (one node object named `B`,
reference `1`, is the source of both select nodes); when a table is
referenced first and created later, the new parent is appended without
merging, leaving two distinct vertices with the same name. -/
theorem c1_amended_merge :
    ((exCreateRef.iter_deep).filter
        (fun r => (exCreateRef.getNode r).name == "B")).dedup = [1]
      ∧ (exCreateRef.getNode 1).name = "B"
      ∧ (exCreateRef.getNode 3).sources = [1]
      ∧ (exCreateRef.getNode 5).sources = [1]
      ∧ ((exRefCreate.iter_deep).filter
          (fun r => (exRefCreate.getNode r).name == "B")).dedup.length = 2 := by
  decide

/-- C2: the failing input.  On the scenario graph (`B` from `A`, then `C`
from `A, B`) the walk visits the shared vertex `A` twice and `unq_nodes`
returns it twice: its membership test compares the node's name string
against a list of node objects, which is always false in Python, so nothing
is ever filtered.  The claim (and the function's own docstring) promise at
most one node per distinct name. -/
theorem c2_unq_nodes_no_dedup :
    exScenario.unq_nodes = [4, 0, 1, 0]
      ∧ (exScenario.unq_nodes).map (fun r => (exScenario.getNode r).name)
          = ["C", "A", "B", "A"]
      ∧ exScenario.unq_nodes = exScenario.iter_deep := by
  refine ⟨by decide, by decide, exScenario.unq_nodes_eq_iter_deep⟩

/-- C3: one child iteration of `insert` behaves exactly as specified: when a
non-CTE node with the child's name exists in the walk (`known`), it is
removed from the root list when present (`erase` leaves the list unchanged
otherwise), the placeholder at position `i` of the parent's sources is
replaced by `known`, every object other than the parent (in particular the
placeholder itself) is left unmodified, and the id counter does not move;
when no such node exists the placeholder receives the fresh monotonic id
and every other object is untouched; after the loop the parent is appended
to the root list and given a fresh id. -/
theorem c3_insert_algorithm (g : SimplifiedDAG) (p i c : Nat) :
    (∀ k, findKnown g ((g.getNode c).name) = some k →
        (insertChild g p i c).trees = g.trees.erase k
        ∧ (insertChild g p i c).getNode p
            = { g.getNode p with sources := (g.getNode p).sources.set i k }
        ∧ (∀ r, r ≠ p → (insertChild g p i c).getNode r = g.getNode r)
        ∧ (insertChild g p i c).next_id = g.next_id)
    ∧ (findKnown g ((g.getNode c).name) = none →
        (insertChild g p i c).trees = g.trees
        ∧ (c < g.arena.length →
            (insertChild g p i c).getNode c = { g.getNode c with id := some g.next_id })
        ∧ (∀ r, r ≠ c → (insertChild g p i c).getNode r = g.getNode r)
        ∧ (insertChild g p i c).next_id = g.next_id + 1)
    ∧ ((g.insert p).trees = (insertLoop g p).trees ++ [p]
        ∧ (p < g.arena.length →
            (g.insert p).getNode p
              = { (insertLoop g p).getNode p with id := some (insertLoop g p).next_id })
        ∧ (g.insert p).next_id = (insertLoop g p).next_id + 1) := by
  refine ⟨?_, ?_, ?_, ?_, ?_⟩
  · intro k h
    obtain ⟨h1, h2, h3, h4, _, _⟩ := insertChild_known g p i c k h
    exact ⟨h1, h2, h3, h4⟩
  · intro h
    obtain ⟨h1, h2, h3, _, h4, _, _⟩ := insertChild_none g p i c h
    exact ⟨h1, h2, h3, h4⟩
  · rfl
  · intro hp
    have hp2 : p < (insertLoop g p).arena.length := by
      rw [insertLoop_length]
      exact hp
    exact (add_node_components (insertLoop g p) p).2.2.2.2.1 hp2
  · rfl

/-- C3 witness: the known case evaluated on a one-table graph. -/
theorem c3_insert_algorithm_witness :
    (insertChild exSingle 0 0 0).trees = exSingle.trees.erase 0 :=
  (((c3_insert_algorithm exSingle 0 0 0).1) 0 (by decide)).1

/-- C4: the counterexample.  A node colored with the unregistered class
`mystyle` renders with no `classDef mystyle` line, but the `class 0 mystyle`
assignment line is still emitted: the assignment loop checks only that the
bucket is non-empty, never that a style is registered, so the claim that
both lines are omitted is false. -/
theorem c4_counterexample :
    containsSub exStyled.mm "\tclass 0 mystyle" = true
      ∧ containsSub exStyled.mm "classDef mystyle" = false := by
  decide

/-- C4 (amended): a bucket whose class name has no registered (non-empty)
style definition loses only its `classDef` line — every emitted `classDef`
line comes from a registered style — while the `class` assignment line is
emitted for every non-empty bucket regardless of registration, and no error
is raised (rendering is total); a registered bucket with a member produces
both lines. -/
theorem c4_style_lines_amended :
    (∀ (g : SimplifiedDAG) (l : String), l ∈ g.classDefLines →
        ∃ cls cd, lookupColor g.colors cls = some cd ∧ cd ≠ ""
          ∧ l = "\n\tclassDef " ++ cls ++ " " ++ cd ++ ";")
      ∧ (∀ (g : SimplifiedDAG) (cls : String) (ids : List (Option Nat)),
          (cls, ids) ∈ g.nodeClass → ids ≠ [] →
          ("\n\tclass " ++ String.intercalate "," (ids.map idStr) ++ " " ++ cls)
            ∈ g.classAssignLines)
      ∧ containsSub exStyled.mm "classDef mystyle" = false
      ∧ containsSub exStyled.mm "\tclass 0 mystyle" = true
      ∧ containsSub exPlain.mm "\tclassDef srcNode fill:#EEEEEE,stroke:#666666;" = true
      ∧ containsSub exPlain.mm "\tclass 0 srcNode" = true := by
  refine ⟨?_, ?_, by decide, by decide, by decide, by decide⟩
  · intro g l hl
    rw [SimplifiedDAG.classDefLines, List.mem_filterMap] at hl
    obtain ⟨p, hp, hfp⟩ := hl
    cases hlk : lookupColor g.colors p.1 with
    | none =>
      rw [hlk] at hfp
      simp at hfp
    | some cd =>
      rw [hlk] at hfp
      dsimp only at hfp
      by_cases hcd : cd = ""
      · rw [if_pos (by simp [hcd])] at hfp
        exact absurd hfp (by simp)
      · rw [if_neg (by simp [hcd])] at hfp
        refine ⟨p.1, cd, hlk, hcd, ?_⟩
        exact (Option.some.inj hfp).symm
  · intro g cls ids hmem hne
    rw [SimplifiedDAG.classAssignLines, List.mem_filterMap]
    refine ⟨(cls, ids), hmem, ?_⟩
    rw [if_neg (by simpa using hne)]

/-- C4 witness: the general parts applied to the plain one-table graph and
its `srcNode` lines. -/
theorem c4_style_lines_amended_witness :
    (∃ cls cd, lookupColor exPlain.colors cls = some cd ∧ cd ≠ ""
        ∧ "\n\tclassDef srcNode fill:#EEEEEE,stroke:#666666;"
            = "\n\tclassDef " ++ cls ++ " " ++ cd ++ ";")
      ∧ ("\n\tclass " ++ String.intercalate "," ([some 0].map idStr) ++ " " ++ "srcNode")
          ∈ exPlain.classAssignLines :=
  ⟨c4_style_lines_amended.1 exPlain "\n\tclassDef srcNode fill:#EEEEEE,stroke:#666666;" (by decide),
   c4_style_lines_amended.2.1 exPlain "srcNode" [some 0] (by decide) (by decide)⟩

/-- C5: after any sequence of statement inserts starting from the empty
graph, no reference in the root list occurs in the sources list of any node
of the `unq_nodes` result: a consumed node is always removed from the root
list at merge time, and a newly appended parent is never anyone's source. -/
theorem c5_roots_not_referenced (stmts : List Stmt) :
    ∀ t ∈ (buildDAG stmts).trees, ∀ r ∈ (buildDAG stmts).unq_nodes,
      t ∉ ((buildDAG stmts).getNode r).sources := by
  intro t ht r _
  exact (buildDAG_DAGInv stmts).notSrc t ht r

/-- C5 witness: the scenario graph, root `C` (reference 4) against the
walked node `B` (reference 1). -/
theorem c5_roots_not_referenced_witness :
    (4 : Nat) ∉ ((buildDAG
        [⟨"B", NodeType.Table, [("A", NodeType.Table)]⟩,
         ⟨"C", NodeType.Table, [("A", NodeType.Table), ("B", NodeType.Table)]⟩]).getNode 1).sources :=
  c5_roots_not_referenced
    [⟨"B", NodeType.Table, [("A", NodeType.Table)]⟩,
     ⟨"C", NodeType.Table, [("A", NodeType.Table), ("B", NodeType.Table)]⟩]
    4 (by decide) 1 (by decide)

/-- C6: the two-statement scenario.  The graph reaches exactly the three
distinct vertices `C, B, A`; the edge set (each direct source paired with
its consumer, over the whole walk) is exactly `A→C, B→C, A→B`; the root
classification yields exactly `A` and the end classification exactly `C`. -/
theorem c6_scenario :
    (exScenario.iter_deep).dedup = [4, 1, 0]
      ∧ ((exScenario.iter_deep).dedup).map (fun r => (exScenario.getNode r).name)
          = ["C", "B", "A"]
      ∧ ((exScenario.iter_deep).flatMap
          (fun r => (exScenario.getNode r).sources.map
            (fun s => ((exScenario.getNode s).name, (exScenario.getNode r).name)))).dedup
          = [("A", "C"), ("B", "C"), ("A", "B")]
      ∧ (exScenario.root_nodes).map (fun r => (exScenario.getNode r).name) = ["A"]
      ∧ (exScenario.end_nodes).map (fun r => (exScenario.getNode r).name) = ["C"] := by
  decide

/-- C7: the `known` lookup of `insert` filters on the node kind, so it never
returns a CTE node even on an exact name match; concretely, with a CTE named
`X` first in the walk, looking up `X` skips it and returns the later Table
node, and the graph keeps two distinct vertices named `X`. -/
theorem c7_known_never_cte :
    (∀ (g : SimplifiedDAG) (nm : String) (k : Nat),
        findKnown g nm = some k → (g.getNode k).node_t ≠ NodeType.CTE)
      ∧ findKnown exCte "X" = some 1
      ∧ (exCte.getNode 0).name = "X"
      ∧ (exCte.getNode 0).node_t = NodeType.CTE
      ∧ (exCte.getNode 1).name = "X"
      ∧ (exCte.getNode 1).node_t = NodeType.Table
      ∧ ((exCte.iter_deep).filter (fun r => (exCte.getNode r).name == "X")).dedup = [0, 1] := by
  refine ⟨?_, by decide, by decide, by decide, by decide, by decide, by decide⟩
  intro g nm k h
  have hp := List.find?_some h
  simp only [Bool.and_eq_true, beq_iff_eq, bne_iff_ne, ne_eq] at hp
  exact hp.2

/-- C7 witness: the lookup on the CTE example returns the Table node, which
is therefore not a CTE. -/
theorem c7_known_never_cte_witness :
    (exCte.getNode 1).node_t ≠ NodeType.CTE :=
  c7_known_never_cte.1 exCte "X" 1 (by decide)

/-- C8: the counterexample.  In the reference-then-create graph the edge
line `0 --> 1` is emitted before the declaration line of id `0` (the walk
declares a consumer before its sources), and the name `B` is declared under
two different ids (`0` and `3`), refuting both the earlier-declaration and
the one-id-per-name parts of the claim.  The rendered text indeed contains
the edge immediately followed by the later declaration of its source. -/
theorem c8_counterexample :
    exRefCreate.mmBodyLines
        = [MMLine.decl (some 1) "S1", MMLine.edge (some 0) (some 1),
           MMLine.decl (some 0) "B", MMLine.decl (some 3) "B",
           MMLine.edge (some 2) (some 3), MMLine.decl (some 2) "A"]
      ∧ (exRefCreate.mmBodyLines).indexOf (MMLine.edge (some 0) (some 1))
          < (exRefCreate.mmBodyLines).indexOf (MMLine.decl (some 0) "B")
      ∧ MMLine.decl (some 0) "B" ∈ exRefCreate.mmBodyLines
      ∧ MMLine.decl (some 3) "B" ∈ exRefCreate.mmBodyLines
      ∧ (some 0 : Option Nat) ≠ some 3
      ∧ containsSub exRefCreate.mm "\t0 --> 1\n\t0[\"B\"]" = true := by
  decide

/-- C8 (amended): the rendered text is the header followed by the body
lines, the style sections and a trailing newline, and every id referenced by
an edge line is declared by some vertex-declaration line of the output —
though possibly a later one, and a name may be declared more than once. -/
theorem c8_render_amended (stmts : List Stmt) :
    (buildDAG stmts).mm
        = "\ngraph LR\n" ++ strCat (((buildDAG stmts).mmBodyLines).map renderMMLine)
            ++ strCat (buildDAG stmts).classDefLines
            ++ strCat (buildDAG stmts).classAssignLines ++ "\n"
      ∧ ∀ s t : Option Nat, MMLine.edge s t ∈ (buildDAG stmts).mmBodyLines →
          (∃ nm, MMLine.decl s nm ∈ (buildDAG stmts).mmBodyLines)
          ∧ (∃ nm, MMLine.decl t nm ∈ (buildDAG stmts).mmBodyLines) := by
  refine ⟨rfl, ?_⟩
  intro s t hline
  have hinv := buildDAG_DAGInv stmts
  set g := buildDAG stmts with hg
  rw [SimplifiedDAG.mmBodyLines, List.mem_flatMap] at hline
  obtain ⟨r, hr, hmem⟩ := hline
  rcases List.mem_cons.mp hmem with heq | hmem2
  · exact absurd heq (by simp)
  · rw [List.mem_map] at hmem2
    obtain ⟨src, hsrc, heq⟩ := hmem2
    injection heq with h1 h2
    subst h1
    subst h2
    constructor
    · have hiter : r ∈ g.iter_deep := by
        rw [← g.unq_nodes_eq_iter_deep]
        exact hr
      have hsrc_iter : src ∈ g.iter_deep :=
        iter_deep_closed g hinv.desc hinv.bound r hiter src hsrc
      have hsrc_unq : src ∈ g.unq_nodes := by
        rw [g.unq_nodes_eq_iter_deep]
        exact hsrc_iter
      refine ⟨(g.getNode src).name, ?_⟩
      rw [SimplifiedDAG.mmBodyLines, List.mem_flatMap]
      exact ⟨src, hsrc_unq, List.mem_cons_self _ _⟩
    · refine ⟨(g.getNode r).name, ?_⟩
      rw [SimplifiedDAG.mmBodyLines, List.mem_flatMap]
      exact ⟨r, hr, List.mem_cons_self _ _⟩

/-- C8 witness: the edge `0 --> 2` of the scenario graph has both of its
ids declared somewhere in the body lines. -/
theorem c8_render_amended_witness :
    (∃ nm, MMLine.decl (some 0) nm ∈ (buildDAG
        [⟨"B", NodeType.Table, [("A", NodeType.Table)]⟩,
         ⟨"C", NodeType.Table, [("A", NodeType.Table), ("B", NodeType.Table)]⟩]).mmBodyLines)
      ∧ (∃ nm, MMLine.decl (some 2) nm ∈ (buildDAG
        [⟨"B", NodeType.Table, [("A", NodeType.Table)]⟩,
         ⟨"C", NodeType.Table, [("A", NodeType.Table), ("B", NodeType.Table)]⟩]).mmBodyLines) :=
  (c8_render_amended
    [⟨"B", NodeType.Table, [("A", NodeType.Table)]⟩,
     ⟨"C", NodeType.Table, [("A", NodeType.Table), ("B", NodeType.Table)]⟩]).2
    (some 0) (some 2) (by decide)

/-- C9: the counterexample.  After sorting the depth-two graph with the
default comparator, the reachable interior node `B` (reference 2, a source
of the sole root) keeps its sources in the original order `Z, A`, although
the comparator orders `A` strictly before `Z`: the sort is applied to the
root list and to the direct sources of roots only, never recursively. -/
theorem c9_counterexample :
    ((exChain.sortDAG defaultLe).getNode 2).sources = [0, 1]
      ∧ (exChain.getNode 0).name = "Z"
      ∧ (exChain.getNode 1).name = "A"
      ∧ (exChain.sortDAG defaultLe).trees = [4]
      ∧ 2 ∈ ((exChain.sortDAG defaultLe).getNode 4).sources
      ∧ defaultLe ((exChain.sortDAG defaultLe).getNode 1)
          ((exChain.sortDAG defaultLe).getNode 0) = true
      ∧ defaultLe ((exChain.sortDAG defaultLe).getNode 0)
          ((exChain.sortDAG defaultLe).getNode 1) = false := by
  decide

/-- C9 (amended): `sort` replaces the root list by its stable sort under the
comparator (a permutation, pairwise ordered when the comparator is total and
transitive), replaces the sources of each root by their stable sort, and
leaves every node outside the root list untouched; the default comparator is
ascending lexicographic comparison of `(slen, color-or-empty, name)` keys,
and it is total and transitive. -/
theorem c9_sort_amended (g : SimplifiedDAG) (le : DAGNode → DAGNode → Bool) :
    (g.sortDAG le).trees = sortL (fun a b => le (g.getNode a) (g.getNode b)) g.trees
      ∧ ((g.sortDAG le).trees).Perm g.trees
      ∧ ((∀ a b, le a b = true ∨ le b a = true) →
          (∀ a b c, le a b = true → le b c = true → le a c = true) →
          ((g.sortDAG le).trees).Pairwise
            (fun a b => le (g.getNode a) (g.getNode b) = true))
      ∧ (∀ r, r ∉ g.trees → (g.sortDAG le).getNode r = g.getNode r)
      ∧ (g.trees.Nodup → (∀ t ∈ g.trees, t < g.arena.length) →
          (∀ t ∈ g.trees, ∀ i, i < g.arena.length → t ∉ (g.getNode i).sources) →
          ∀ t ∈ g.trees,
            (g.sortDAG le).getNode t
              = { g.getNode t with
                  sources := sortL (fun a b => le (g.getNode a) (g.getNode b))
                    (g.getNode t).sources })
      ∧ (∀ a b, defaultLe a b = keyLe (default_sort_rule a) (default_sort_rule b))
      ∧ (∀ a b, defaultLe a b = true ∨ defaultLe b a = true)
      ∧ (∀ a b c, defaultLe a b = true → defaultLe b c = true → defaultLe a c = true) := by
  have hperm : (sortL (fun a b => le (g.getNode a) (g.getNode b)) g.trees).Perm g.trees :=
    sortL_perm _ g.trees
  have htrees : (g.sortDAG le).trees
      = sortL (fun a b => le (g.getNode a) (g.getNode b)) g.trees :=
    trees_foldl_sortphase le _ _
  refine ⟨htrees, ?_, ?_, ?_, ?_, fun a b => rfl, defaultLe_total, defaultLe_trans⟩
  · rw [htrees]
    exact hperm
  · intro htot htrans
    rw [htrees]
    refine sortL_pairwise _ ?_ ?_ g.trees
    · intro a b
      exact htot _ _
    · intro a b c h1 h2
      exact htrans _ _ _ h1 h2
  · intro r hr
    have hr1 : r ∉ sortL (fun a b => le (g.getNode a) (g.getNode b)) g.trees := by
      intro hcon
      exact hr (hperm.mem_iff.mp hcon)
    exact (foldl_sortphase le _ _ r).1 hr1
  · intro hnd hbound hns t ht
    have hnd1 : (sortL (fun a b => le (g.getNode a) (g.getNode b)) g.trees).Nodup :=
      hperm.nodup_iff.mpr hnd
    have ht1 : t ∈ sortL (fun a b => le (g.getNode a) (g.getNode b)) g.trees :=
      hperm.mem_iff.mpr ht
    have hsrch : ∀ t2 ∈ sortL (fun a b => le (g.getNode a) (g.getNode b)) g.trees,
        ∀ s ∈ (g.getNode t2).sources,
          s ∉ sortL (fun a b => le (g.getNode a) (g.getNode b)) g.trees := by
      intro t2 ht2 s hs hcon
      have ht2g : t2 ∈ g.trees := hperm.mem_iff.mp ht2
      have hsg : s ∈ g.trees := hperm.mem_iff.mp hcon
      exact hns s hsg t2 (hbound t2 ht2g) hs
    exact (foldl_sortphase le _ _ t).2 hnd1 ht1 (hbound t ht) hsrch

/-- C9 witness: the amended sort characterization evaluated on the
depth-two graph with the default comparator. -/
theorem c9_sort_amended_witness :
    (exChain.sortDAG defaultLe).getNode 4
        = { exChain.getNode 4 with
            sources := sortL (fun a b => defaultLe (exChain.getNode a) (exChain.getNode b))
              (exChain.getNode 4).sources }
      ∧ ((exChain.sortDAG defaultLe).trees).Pairwise
          (fun a b => defaultLe (exChain.getNode a) (exChain.getNode b) = true) :=
  ⟨(c9_sort_amended exChain defaultLe).2.2.2.2.1 (by decide) (by decide) (by decide) 4 (by decide),
   (c9_sort_amended exChain defaultLe).2.2.1 defaultLe_total defaultLe_trans⟩

/-- C10: applying a color rule writes the callback's result into the color
field of exactly the nodes of the root list; any node reachable only as a
source of another node keeps its record (color included) unchanged. -/
theorem c10_color_rule_frame (g : SimplifiedDAG) (cb : DAGNode → Option String) (r : Nat) :
    (r ∉ g.trees → (g.set_node_color_rule cb).getNode r = g.getNode r)
      ∧ (g.trees.Nodup → r ∈ g.trees → r < g.arena.length →
          (g.set_node_color_rule cb).getNode r
            = { g.getNode r with color := cb (g.getNode r) }) :=
  foldl_color cb g.trees g r

/-- C10 witness: on the one-table graph, a non-root reference is untouched
and the root receives the callback's color. -/
theorem c10_color_rule_frame_witness :
    (exPlain.set_node_color_rule (fun _ => some "navy")).getNode 1 = exPlain.getNode 1
      ∧ (exPlain.set_node_color_rule (fun _ => some "navy")).getNode 0
          = { exPlain.getNode 0 with color := some "navy" } :=
  ⟨(c10_color_rule_frame exPlain (fun _ => some "navy") 1).1 (by decide),
   (c10_color_rule_frame exPlain (fun _ => some "navy") 0).2 (by decide) (by decide) (by decide)⟩
